import Mathlib

/-!
Verification of the fixed-size byte container `bytes<N>` from `src/bytes.hpp`.

A container value of `bytes<N>` is modelled as a `List Nat` of its N byte
cells, index 0 first; each cell holds a value in `[0, 256)` (`ok`).  Byte 0
is the least-significant byte under the library's little-endian convention.
`unsigned char` arithmetic is modelled on `Nat`, with an explicit `% 256`
exactly where C++ truncates an `int` expression on assignment to `byte_t`.
-/

namespace Zuu

/-- Every cell of the list is a valid byte value (`unsigned char`). -/
def ok (x : List Nat) : Prop := ∀ d ∈ x, d < 256

instance (x : List Nat) : Decidable (ok x) := by
  unfold ok; exact List.decidableBAll _ x

/-- The numeric value of the buffer read little-endian (byte 0 least
significant).  This is the abstraction function used to state bit-level
properties of the byte-wise algorithms. -/
def toVal : List Nat → Nat
  | [] => 0
  | d :: ds => d + 256 * toVal ds

/-- Bit `j` of the buffer viewed as one `N*8`-bit little-endian bit
sequence: bit `j % 8` of byte `j / 8` (false beyond the end). -/
def bitAt (x : List Nat) (j : Nat) : Bool :=
  (x.getD (j / 8) 0).testBit (j % 8)

/-- The carry loop of `operator<<` for `bit_shift != 0`
(`bytes.hpp` lines 156-164): destination byte
`(source << bit_shift) | carry` truncated to a byte on assignment; the
carry fed into each byte is `source_prev >> (8 - bit_shift)`, i.e. the
bits of the previous source byte that overflowed past bit 7 (0 for the
first byte). -/
def shlCarry (bs : Nat) : Nat → List Nat → List Nat
  | _, [] => []
  | carry, d :: ds => ((d <<< bs) ||| carry) % 256 :: shlCarry bs (d >>> (8 - bs)) ds

/-- Embedding of `bytes::operator<<(shift_bits)` (`bytes.hpp` lines 143-167).
`shift_bits == 0` returns the value unchanged; `shift_bits >= N*8`
returns the all-zero container; otherwise the shift splits into a whole
byte relocation (`byte_shift`) and a sub-byte carry shift (`bit_shift`).
Result cells not written by the loops stay zero. -/
def shl (x : List Nat) (shiftBits : Nat) : List Nat :=
  if shiftBits = 0 then x
  else if x.length * 8 ≤ shiftBits then List.replicate x.length 0
  -- below, `shiftBits / 8` is the source's `byte_shift` and `shiftBits % 8`
  -- its `bit_shift`
  else if shiftBits % 8 = 0 then
    List.replicate (shiftBits / 8) 0 ++ List.take (x.length - shiftBits / 8) x
  else
    List.replicate (shiftBits / 8) 0 ++
      shlCarry (shiftBits % 8) 0 (List.take (x.length - shiftBits / 8) x)

/-- The carry fed into a byte by the `operator>>` carry loop: the low
`bit_shift` bits of the next-higher source byte, shifted to the top of
the byte (`carry = data_[src_idx] << (8 - bit_shift)` truncated to
`byte_t`); 0 for the highest processed byte. -/
def shrCarryIn (bs : Nat) : List Nat → Nat
  | [] => 0
  | e :: _ => (e <<< (8 - bs)) % 256

/-- The carry loop of `operator>>` for `bit_shift != 0`
(`bytes.hpp` lines 187-195), iterating from the high end downward:
destination byte `(source >> bit_shift) | carry`. -/
def shrCarry (bs : Nat) : List Nat → List Nat
  | [] => []
  | d :: ds => ((d >>> bs) ||| shrCarryIn bs ds) :: shrCarry bs ds

/-- Embedding of `bytes::operator>>(shift_bits)` (`bytes.hpp` lines 174-198). -/
def shr (x : List Nat) (shiftBits : Nat) : List Nat :=
  if shiftBits = 0 then x
  else if x.length * 8 ≤ shiftBits then List.replicate x.length 0
  else if shiftBits % 8 = 0 then
    List.drop (shiftBits / 8) x ++ List.replicate (shiftBits / 8) 0
  else
    shrCarry (shiftBits % 8) (List.drop (shiftBits / 8) x) ++
      List.replicate (shiftBits / 8) 0

/-- Embedding of `bytes::operator|`: byte-wise OR of two same-size containers. -/
def orB (x y : List Nat) : List Nat := List.zipWith (· ||| ·) x y

/-- Embedding of `bytes::rotate_left(n)` (`bytes.hpp` lines 264-267):
`n %= N*8; return (*this << n) | (*this >> (N*8 - n))`. -/
def rotate_left (x : List Nat) (n : Nat) : List Nat :=
  orB (shl x (n % (x.length * 8))) (shr x (x.length * 8 - n % (x.length * 8)))

/-- Embedding of `bytes::rotate_right(n)` (`bytes.hpp` lines 272-275). -/
def rotate_right (x : List Nat) (n : Nat) : List Nat :=
  orB (shr x (n % (x.length * 8))) (shl x (x.length * 8 - n % (x.length * 8)))

/-- Embedding of `bytes::set_bit(bit_pos)` (`bytes.hpp` lines 214-218):
`data_[bit_pos/8] |= (1 << (bit_pos % 8))` when in range, no-op otherwise. -/
def set_bit (x : List Nat) (pos : Nat) : List Nat :=
  if pos < x.length * 8 then
    x.set (pos / 8) (x.getD (pos / 8) 0 ||| (1 <<< (pos % 8)))
  else x

/-- Embedding of `bytes::clear_bit(bit_pos)` (`bytes.hpp` lines 223-227):
`data_[bit_pos/8] &= ~(1 << (bit_pos % 8))`.  The `int` complement
`~(1 << k)` AND-ed with a byte acts as the 8-bit mask `255 ^^^ (1 <<< k)`,
which is how the mask is written here. -/
def clear_bit (x : List Nat) (pos : Nat) : List Nat :=
  if pos < x.length * 8 then
    x.set (pos / 8) (x.getD (pos / 8) 0 &&& (255 ^^^ (1 <<< (pos % 8))))
  else x

/-- Embedding of `bytes::toggle_bit(bit_pos)` (`bytes.hpp` lines 232-236):
`data_[bit_pos/8] ^= (1 << (bit_pos % 8))`. -/
def toggle_bit (x : List Nat) (pos : Nat) : List Nat :=
  if pos < x.length * 8 then
    x.set (pos / 8) (x.getD (pos / 8) 0 ^^^ (1 <<< (pos % 8)))
  else x

/-- Embedding of `bytes::test_bit(bit_pos)` (`bytes.hpp` lines 242-245). -/
def test_bit (x : List Nat) (pos : Nat) : Bool :=
  if x.length * 8 ≤ pos then false
  else ((x.getD (pos / 8) 0) &&& (1 <<< (pos % 8))) != 0

/-- Embedding of `std::popcount` on one byte: number of set bits among bits 0..7. -/
def popcountB (b : Nat) : Nat :=
  ((List.range 8).filter (fun k => b.testBit k)).length

/-- Embedding of `bytes::popcount()` (`bytes.hpp` lines 250-256): sum of per-byte
popcounts. -/
def popcount (x : List Nat) : Nat := (x.map popcountB).sum

/-- Embedding of `bytes::operator[]` (`bytes.hpp` lines 77-83): clamped element
access, `data_[std::min(index, N - 1)]`. -/
def get (x : List Nat) (i : Nat) : Nat :=
  x.getD (min i (x.length - 1)) 0

/-- The constructor `bytes(IntType value)` (`bytes.hpp` lines 62-68) for a
container of `n` bytes and an integer type of `w` bytes: `memcpy` of the
first `min(n, w)` bytes of the value's little-endian representation, the
rest zero.  A two's-complement value enters as its representative
modulo `2^(8*w)`. -/
def from_int (n w v : Nat) : List Nat :=
  (List.range n).map (fun i => if i < min n w then (v >>> (8 * i)) % 256 else 0)

/-- Embedding of `bytes::to_int<IntType>()` (`bytes.hpp` lines 284-291) for an integer
type of `w` bytes: `memcpy` of the first `min(N, w)` bytes into the low
bytes of a zero integer, read little-endian. -/
def to_int (w : Nat) (x : List Nat) : Nat :=
  toVal (x.take (min x.length w))

/-- One byte of the binary rendering (`bytes.hpp` lines 348-353):
`(b >> j) & 1` printed for `j = 7` down to `0`. -/
def byteBin (b : Nat) : List Char :=
  (List.range 8).map (fun k => if ((b >>> (7 - k)) &&& 1) != 0 then '1' else '0')

/-- The stream output loop (`bytes.hpp` lines 347-355): bytes in index
order `i = 0 .. N-1`, a space after each byte except the last. -/
def binRender : List Nat → List Char
  | [] => []
  | [b] => byteBin b
  | b :: rest => byteBin b ++ ' ' :: binRender rest

/-- The full binary rendering as a string. -/
def binStr (x : List Nat) : String := String.mk (binRender x)

/-- One lowercase hex digit (`std::hex` default case). -/
def hexDigit (n : Nat) : Char :=
  if n < 10 then Char.ofNat (48 + n) else Char.ofNat (87 + n)

/-- One byte as two zero-padded lowercase hex digits
(`std::setfill('0') << std::setw(2)`). -/
def byteHex (b : Nat) : List Char := [hexDigit (b / 16), hexDigit (b % 16)]

/-- The `print_hex` loop (`bytes.hpp` lines 362-365): bytes from index
`N-1` down to index 0, two hex digits each.  The list recursion emits the
tail (higher indices) before the head. -/
def hexRender : List Nat → List Char
  | [] => []
  | b :: rest => hexRender rest ++ byteHex b

/-- Embedding of `bytes::print_hex` output (`bytes.hpp` lines 360-367). -/
def hexStr (x : List Nat) : String := "0x" ++ String.mk (hexRender x)

/-- The defaulted `operator<=>` (`bytes.hpp` line 343): lexicographic
comparison of the byte array starting at index 0. -/
def cmp : List Nat → List Nat → Ordering
  | [], [] => .eq
  | [], _ :: _ => .lt
  | _ :: _, [] => .gt
  | a :: as, b :: bs =>
    if a < b then .lt else if b < a then .gt else cmp as bs

/-- Modelled from the spec: the binary rendering as §6 of the spec
describes it — a space-separated, HIGH-to-low byte order listing (byte
`N-1` first, byte 0 last), each byte as 8 binary digits bit 7 first.
Used only to compare the spec's wording against the code's rendering. -/
def specBinStr (x : List Nat) : String := String.mk (binRender x.reverse)

/-! ### Arithmetic helper lemmas -/

theorem ok_cons_head {d : Nat} {ds : List Nat} (h : ok (d :: ds)) : d < 256 :=
  h d (List.mem_cons_self d ds)

theorem ok_cons_tail {d : Nat} {ds : List Nat} (h : ok (d :: ds)) : ok ds :=
  fun e he => h e (List.mem_cons_of_mem d he)

theorem pow_split {bs : Nat} (hbs : bs ≤ 8) : 2 ^ (8 - bs) * 2 ^ bs = 256 := by
  rw [← pow_add]
  have h : 8 - bs + bs = 8 := by omega
  rw [h]
  norm_num

theorem mod_mul_decomp {r K M : Nat} (s : Nat) (hr : r < K) (hM : 0 < M) :
    (r + K * s) % (K * M) = r + K * (s % M) := by
  have hK : 0 < K := Nat.pos_of_ne_zero (by omega)
  calc (r + K * s) % (K * M)
      = (r + K * (M * (s / M) + s % M)) % (K * M) := by rw [Nat.div_add_mod]
    _ = (r + K * (s % M) + (K * M) * (s / M)) % (K * M) := by ring_nf
    _ = (r + K * (s % M)) % (K * M) := by rw [Nat.add_mul_mod_self_left]
    _ = r + K * (s % M) := by
        apply Nat.mod_eq_of_lt
        have hs : s % M < M := Nat.mod_lt _ hM
        nlinarith

theorem toVal_lt {x : List Nat} (hx : ok x) : toVal x < 256 ^ x.length := by
  induction x with
  | nil => simp [toVal]
  | cons d ds ih =>
    have hd := ok_cons_head hx
    have ht := ih (ok_cons_tail hx)
    simp only [toVal, List.length_cons, pow_succ]
    nlinarith

theorem toVal_append (a b : List Nat) :
    toVal (a ++ b) = toVal a + 256 ^ a.length * toVal b := by
  induction a with
  | nil => simp [toVal]
  | cons d ds ih =>
    show toVal (d :: (ds ++ b)) = _
    simp only [toVal]
    rw [ih, List.length_cons, pow_succ]
    ring

theorem toVal_replicate_zero (k : Nat) : toVal (List.replicate k 0) = 0 := by
  induction k with
  | zero => rfl
  | succ n ih => simp [List.replicate_succ, toVal, ih]

theorem toVal_take {x : List Nat} (hx : ok x) :
    ∀ k, toVal (List.take k x) = toVal x % 256 ^ k := by
  induction x with
  | nil => intro k; simp [toVal]
  | cons d ds ih =>
    intro k
    match k with
    | 0 => simp [toVal, Nat.mod_one]
    | k + 1 =>
      have hd := ok_cons_head hx
      simp only [List.take_succ_cons, toVal, ih (ok_cons_tail hx) k, pow_succ]
      rw [mul_comm (256 ^ k) 256, mod_mul_decomp (toVal ds) hd (Nat.pos_pow_of_pos k (by norm_num))]

theorem toVal_drop {x : List Nat} (hx : ok x) :
    ∀ k, toVal (List.drop k x) = toVal x / 256 ^ k := by
  induction x with
  | nil => intro k; simp [toVal]
  | cons d ds ih =>
    intro k
    match k with
    | 0 => simp
    | k + 1 =>
      have hd := ok_cons_head hx
      have h256 : (256 : Nat) = 256 ^ 1 := by norm_num
      simp only [List.drop_succ_cons, toVal, ih (ok_cons_tail hx) k, pow_succ]
      rw [mul_comm (256 ^ k) 256, ← Nat.div_div_eq_div_mul]
      congr 1
      rw [Nat.add_mul_div_left _ _ (by norm_num : (0:Nat) < 256),
          Nat.div_eq_of_lt hd, zero_add]

theorem toVal_inj : ∀ {x y : List Nat}, ok x → ok y → x.length = y.length →
    toVal x = toVal y → x = y := by
  intro x
  induction x with
  | nil =>
    intro y _ _ hlen _
    exact (List.length_eq_zero.mp hlen.symm).symm
  | cons d ds ih =>
    intro y hx hy hlen hval
    match y with
    | e :: es =>
      have hd := ok_cons_head hx
      have he := ok_cons_head hy
      simp only [toVal] at hval
      have hde : d = e ∧ toVal ds = toVal es := by omega
      have := ih (ok_cons_tail hx) (ok_cons_tail hy)
        (by simpa using hlen) hde.2
      rw [hde.1, this]

/-! ### Value semantics of the carry loops -/

theorem toVal_shlCarry {bs : Nat} (hbs0 : 0 < bs) (hbs : bs < 8) :
    ∀ (x : List Nat) (c : Nat), ok x → c < 2 ^ bs →
      toVal (shlCarry bs c x) = (c + toVal x * 2 ^ bs) % 256 ^ x.length := by
  intro x
  induction x with
  | nil => intro c _ _; simp [shlCarry, toVal, Nat.mod_one]
  | cons d ds ih =>
    intro c hok hc
    have hd := ok_cons_head hok
    have hds := ok_cons_tail hok
    have hsplit := pow_split (le_of_lt hbs)
    have hq : d >>> (8 - bs) < 2 ^ bs := by
      rw [Nat.shiftRight_eq_div_pow]
      apply Nat.div_lt_of_lt_mul
      rw [hsplit]
      exact hd
    simp only [shlCarry, toVal, List.length_cons]
    rw [ih _ hds hq, Nat.shiftRight_eq_div_pow]
    have hor : d <<< bs ||| c = d * 2 ^ bs + c := by
      rw [Nat.shiftLeft_eq, mul_comm d (2 ^ bs), ← Nat.mul_add_lt_is_or hc d]
    rw [hor]
    -- split d into its high `bs` bits and low `8 - bs` bits
    have hdsplit : d = 2 ^ (8 - bs) * (d / 2 ^ (8 - bs)) + d % 2 ^ (8 - bs) :=
      (Nat.div_add_mod d (2 ^ (8 - bs))).symm
    set q := d / 2 ^ (8 - bs) with hqdef
    set A := d % 2 ^ (8 - bs) with hAdef
    have hA : A < 2 ^ (8 - bs) := Nat.mod_lt _ (Nat.pos_pow_of_pos _ (by norm_num))
    have hr : A * 2 ^ bs + c < 256 := by nlinarith
    have hbyte : (d * 2 ^ bs + c) % 256 = A * 2 ^ bs + c := by
      conv_lhs => rw [hdsplit]
      have h2 : (2 ^ (8 - bs) * q + A) * 2 ^ bs + c = A * 2 ^ bs + c + 256 * q := by
        rw [← hsplit]; ring
      rw [h2, Nat.add_mul_mod_self_left, Nat.mod_eq_of_lt hr]
    rw [hbyte]
    have hrhs : c + (d + 256 * toVal ds) * 2 ^ bs
        = (A * 2 ^ bs + c) + 256 * (q + toVal ds * 2 ^ bs) := by
      conv_lhs => rw [hdsplit]
      rw [← hsplit]; ring
    rw [hrhs, pow_succ, mul_comm (256 ^ ds.length) 256,
        mod_mul_decomp _ hr (Nat.pos_pow_of_pos _ (by norm_num))]

theorem toVal_shrCarry {bs : Nat} (hbs0 : 0 < bs) (hbs : bs < 8) :
    ∀ (x : List Nat), ok x → toVal (shrCarry bs x) = toVal x / 2 ^ bs := by
  intro x
  induction x with
  | nil => simp [shrCarry, toVal]
  | cons d ds ih =>
    intro hok
    have hd := ok_cons_head hok
    have hds := ok_cons_tail hok
    have hsplit := pow_split (le_of_lt hbs)
    have hsplit2 : 2 ^ bs * 2 ^ (8 - bs) = 256 := by rw [mul_comm]; exact hsplit
    have hdq : d >>> bs < 2 ^ (8 - bs) := by
      rw [Nat.shiftRight_eq_div_pow]
      apply Nat.div_lt_of_lt_mul
      rw [hsplit2]
      exact hd
    simp only [shrCarry, toVal]
    rw [ih hds]
    match ds with
    | [] =>
      simp [shrCarryIn, toVal, Nat.shiftRight_eq_div_pow]
    | e :: es =>
      have he := ok_cons_head hds
      -- the carry byte: low `bs` bits of `e`, shifted to the byte's top
      have hcin : shrCarryIn bs (e :: es) = (e % 2 ^ bs) * 2 ^ (8 - bs) := by
        simp only [shrCarryIn]
        rw [Nat.shiftLeft_eq, ← hsplit2, Nat.mul_mod_mul_right]
      rw [hcin]
      have hor : d >>> bs ||| (e % 2 ^ bs) * 2 ^ (8 - bs)
          = (e % 2 ^ bs) * 2 ^ (8 - bs) + d >>> bs := by
        rw [Nat.or_comm, mul_comm (e % 2 ^ bs) (2 ^ (8 - bs)),
            ← Nat.mul_add_lt_is_or hdq (e % 2 ^ bs)]
      rw [hor, Nat.shiftRight_eq_div_pow]
      set t := toVal (e :: es) with htdef
      have htmod : t % 2 ^ bs = e % 2 ^ bs := by
        simp only [htdef, toVal]
        rw [← hsplit2, mul_assoc]
        exact Nat.add_mul_mod_self_left e (2 ^ bs) _
      have hrhs : (d + 256 * t) / 2 ^ bs = d / 2 ^ bs + 2 ^ (8 - bs) * t := by
        rw [← hsplit2, mul_assoc,
          Nat.add_mul_div_left _ _ (Nat.pos_pow_of_pos _ (by norm_num))]
      rw [hrhs, ← htmod]
      have hexp : 2 ^ (8 - bs) * t
          = 2 ^ (8 - bs) * (t % 2 ^ bs) + 256 * (t / 2 ^ bs) := by
        conv_lhs => rw [← Nat.mod_add_div t (2 ^ bs)]
        rw [← hsplit]; ring
      rw [hexp]; ring

/-! ### Length and byte-validity preservation -/

theorem shlCarry_length (bs : Nat) : ∀ (c : Nat) (x : List Nat),
    (shlCarry bs c x).length = x.length := by
  intro c x
  induction x generalizing c with
  | nil => rfl
  | cons d ds ih => simp [shlCarry, ih]

theorem shrCarry_length (bs : Nat) : ∀ (x : List Nat),
    (shrCarry bs x).length = x.length := by
  intro x
  induction x with
  | nil => rfl
  | cons d ds ih => simp [shrCarry, ih]

theorem shl_length (x : List Nat) (b : Nat) : (shl x b).length = x.length := by
  unfold shl
  split
  · rfl
  split
  · simp
  rename_i h0 hlt
  rw [Nat.not_le] at hlt
  have hbsh : b / 8 < x.length := by omega
  split <;>
    simp only [List.length_append, List.length_replicate, List.length_take,
      shlCarry_length] <;> omega

theorem shr_length (x : List Nat) (b : Nat) : (shr x b).length = x.length := by
  unfold shr
  split
  · rfl
  split
  · simp
  rename_i h0 hlt
  rw [Nat.not_le] at hlt
  have hbsh : b / 8 < x.length := by omega
  split <;>
    simp only [List.length_append, List.length_replicate, List.length_drop,
      shrCarry_length] <;> omega

theorem ok_nil : ok [] := by intro d hd; cases hd

theorem ok_replicate_zero (k : Nat) : ok (List.replicate k 0) := by
  intro d hd
  have := List.eq_of_mem_replicate hd
  omega

theorem ok_append {a b : List Nat} (ha : ok a) (hb : ok b) : ok (a ++ b) := by
  intro d hd
  rcases List.mem_append.mp hd with h | h
  · exact ha d h
  · exact hb d h

theorem ok_take {x : List Nat} (hx : ok x) (k : Nat) : ok (List.take k x) :=
  fun d hd => hx d (List.take_subset k x hd)

theorem ok_drop {x : List Nat} (hx : ok x) (k : Nat) : ok (List.drop k x) :=
  fun d hd => hx d (List.drop_subset k x hd)

theorem ok_shlCarry (bs : Nat) : ∀ (c : Nat) (x : List Nat), ok (shlCarry bs c x) := by
  intro c x
  induction x generalizing c with
  | nil => exact ok_nil
  | cons d ds ih =>
    intro e he
    rcases List.mem_cons.mp he with h | h
    · omega
    · exact ih _ e h

theorem ok_shrCarry {bs : Nat} {x : List Nat} (hx : ok x) : ok (shrCarry bs x) := by
  induction x with
  | nil => exact ok_nil
  | cons d ds ih =>
    intro e he
    rcases List.mem_cons.mp he with h | h
    · have hd := ok_cons_head hx
      have h1 : d >>> bs < 2 ^ 8 := by
        rw [Nat.shiftRight_eq_div_pow]
        have := Nat.div_le_self d (2 ^ bs)
        omega
      have h2 : shrCarryIn bs ds < 2 ^ 8 := by
        match ds with
        | [] => simp [shrCarryIn]
        | e₀ :: es => simp only [shrCarryIn]; omega
      have := Nat.or_lt_two_pow h1 h2
      omega
    · exact ih (ok_cons_tail hx) e h

theorem ok_shl {x : List Nat} (hx : ok x) (b : Nat) : ok (shl x b) := by
  unfold shl
  split
  · exact hx
  split
  · exact ok_replicate_zero _
  split
  · exact ok_append (ok_replicate_zero _) (ok_take hx _)
  · exact ok_append (ok_replicate_zero _) (ok_shlCarry _ _ _)

theorem ok_shr {x : List Nat} (hx : ok x) (b : Nat) : ok (shr x b) := by
  unfold shr
  split
  · exact hx
  split
  · exact ok_replicate_zero _
  split
  · exact ok_append (ok_drop hx _) (ok_replicate_zero _)
  · exact ok_append (ok_shrCarry (ok_drop hx _)) (ok_replicate_zero _)

theorem orB_cons (d e : Nat) (ds es : List Nat) :
    orB (d :: ds) (e :: es) = (d ||| e) :: orB ds es := rfl

theorem ok_orB {x y : List Nat} (hx : ok x) (hy : ok y) : ok (orB x y) := by
  induction x generalizing y with
  | nil => intro d hd; cases hd
  | cons d ds ih =>
    match y with
    | [] => intro e he; cases he
    | e :: es =>
      rw [orB_cons]
      intro f hf
      rcases List.mem_cons.mp hf with h | h
      · have hd := ok_cons_head hx
        have he := ok_cons_head hy
        have := Nat.or_lt_two_pow (n := 8) (by omega : d < 2 ^ 8) (by omega : e < 2 ^ 8)
        omega
      · exact ih (ok_cons_tail hx) (ok_cons_tail hy) f h

theorem orB_length (x y : List Nat) : (orB x y).length = min x.length y.length := by
  simp [orB]

/-! ### Value semantics of the shift operators -/

theorem pow256_eq (k : Nat) : (256 : Nat) ^ k = 2 ^ (k * 8) := by
  rw [show (256 : Nat) = 2 ^ 8 by norm_num, ← pow_mul, mul_comm]

theorem toVal_shl {x : List Nat} (hx : ok x) (b : Nat) :
    toVal (shl x b) = (toVal x * 2 ^ b) % 2 ^ (x.length * 8) := by
  have hv := toVal_lt hx
  rw [pow256_eq] at hv
  unfold shl
  split
  · rename_i h0
    rw [h0, pow_zero, mul_one, Nat.mod_eq_of_lt hv]
  rename_i h0
  split
  · rename_i hge
    rw [toVal_replicate_zero]
    have hsplit : 2 ^ b = 2 ^ (x.length * 8) * 2 ^ (b - x.length * 8) := by
      rw [← pow_add]; congr 1; omega
    rw [hsplit, ← mul_assoc, mul_comm (toVal x) (2 ^ (x.length * 8)), mul_assoc,
        mul_comm (2 ^ (x.length * 8)) _, Nat.mul_mod_left]
  rename_i hlt
  rw [Nat.not_le] at hlt
  have hbsh : b / 8 < x.length := by omega
  have hdecomp : (x.length - b / 8) * 8 + (b / 8) * 8 = x.length * 8 := by omega
  split
  · -- byte-aligned shift
    rename_i hbit
    rw [toVal_append, toVal_replicate_zero, List.length_replicate, zero_add,
        toVal_take hx]
    have hb8 : b = (b / 8) * 8 := by omega
    rw [pow256_eq, pow256_eq]
    conv_rhs => rw [hb8, ← hdecomp, pow_add, Nat.mul_mod_mul_right]
    ring
  · -- carry shift
    rename_i hbit
    have hbs0 : 0 < b % 8 := Nat.pos_of_ne_zero hbit
    have hbs8 : b % 8 < 8 := Nat.mod_lt _ (by norm_num)
    rw [toVal_append, toVal_replicate_zero, List.length_replicate, zero_add,
        toVal_shlCarry hbs0 hbs8 _ 0 (ok_take hx _) (Nat.pos_pow_of_pos _ (by norm_num)),
        zero_add, List.length_take, toVal_take hx]
    have hmin : min (x.length - b / 8) x.length = x.length - b / 8 := by omega
    rw [hmin, pow256_eq, pow256_eq]
    have hmm : toVal x % 2 ^ ((x.length - b / 8) * 8) * 2 ^ (b % 8)
          % 2 ^ ((x.length - b / 8) * 8)
        = toVal x * 2 ^ (b % 8) % 2 ^ ((x.length - b / 8) * 8) := by
      rw [Nat.mod_mul_mod]
    rw [hmm]
    have hb8 : b = b % 8 + (b / 8) * 8 := by omega
    conv_rhs => rw [hb8, ← hdecomp, pow_add, pow_add, ← mul_assoc,
      Nat.mul_mod_mul_right]
    ring

theorem toVal_shr {x : List Nat} (hx : ok x) (b : Nat) :
    toVal (shr x b) = toVal x / 2 ^ b := by
  have hv := toVal_lt hx
  rw [pow256_eq] at hv
  unfold shr
  split
  · rename_i h0
    rw [h0, pow_zero, Nat.div_one]
  rename_i h0
  split
  · rename_i hge
    rw [toVal_replicate_zero]
    have : toVal x < 2 ^ b :=
      lt_of_lt_of_le hv (Nat.pow_le_pow_right (by norm_num) hge)
    rw [Nat.div_eq_of_lt this]
  rename_i hlt
  rw [Nat.not_le] at hlt
  have hbsh : b / 8 < x.length := by omega
  split
  · rename_i hbit
    rw [toVal_append, toVal_replicate_zero, toVal_drop hx, mul_zero, add_zero,
        pow256_eq]
    congr 2
    omega
  · rename_i hbit
    have hbs0 : 0 < b % 8 := Nat.pos_of_ne_zero hbit
    have hbs8 : b % 8 < 8 := Nat.mod_lt _ (by norm_num)
    rw [toVal_append, toVal_replicate_zero, mul_zero, add_zero,
        toVal_shrCarry hbs0 hbs8 _ (ok_drop hx _), toVal_drop hx,
        Nat.div_div_eq_div_mul, pow256_eq, ← pow_add]
    congr 2
    omega

/-! ### Bitwise-or lemmas and the byte-wise/value-level bridge -/

theorem or_shiftLeft (a b k : Nat) : (a ||| b) <<< k = (a <<< k) ||| (b <<< k) := by
  apply Nat.eq_of_testBit_eq
  intro i
  simp [Nat.testBit_shiftLeft, Nat.testBit_or, Bool.and_or_distrib_left]

theorem two_pow_mul_or (k a b : Nat) :
    2 ^ k * (a ||| b) = (2 ^ k * a) ||| (2 ^ k * b) := by
  rw [mul_comm (2 ^ k) (a ||| b), mul_comm (2 ^ k) a, mul_comm (2 ^ k) b,
      ← Nat.shiftLeft_eq, ← Nat.shiftLeft_eq, ← Nat.shiftLeft_eq, or_shiftLeft]

theorem or_shuffle (a b c d : Nat) :
    (a ||| b) ||| (c ||| d) = (a ||| c) ||| (b ||| d) := by
  apply Nat.eq_of_testBit_eq
  intro i
  simp only [Nat.testBit_or]
  cases a.testBit i <;> cases b.testBit i <;> cases c.testBit i <;>
    cases d.testBit i <;> rfl

theorem byte_or_split {u v : Nat} (U V : Nat) (hu : u < 256) (hv : v < 256) :
    (u + 256 * U) ||| (v + 256 * V) = (u ||| v) + 256 * (U ||| V) := by
  have h8 : (256 : Nat) = 2 ^ 8 := by norm_num
  rw [h8] at hu hv ⊢
  rw [add_comm u, add_comm v, Nat.mul_add_lt_is_or hu U, Nat.mul_add_lt_is_or hv V,
      or_shuffle, ← two_pow_mul_or, add_comm,
      ← Nat.mul_add_lt_is_or (Nat.or_lt_two_pow hu hv) (U ||| V)]

theorem toVal_orB : ∀ {x y : List Nat}, ok x → ok y → x.length = y.length →
    toVal (orB x y) = toVal x ||| toVal y := by
  intro x
  induction x with
  | nil =>
    intro y _ _ hlen
    have hy : y = [] := List.length_eq_zero.mp hlen.symm
    subst hy
    rfl
  | cons d ds ih =>
    intro y hx hy hlen
    match y with
    | e :: es =>
      rw [orB_cons]
      show toVal ((d ||| e) :: orB ds es) = _
      simp only [toVal]
      rw [ih (ok_cons_tail hx) (ok_cons_tail hy) (by simpa using hlen),
          byte_or_split _ _ (ok_cons_head hx) (ok_cons_head hy)]

theorem bitAt_toVal {x : List Nat} (hx : ok x) : ∀ (j : Nat),
    bitAt x j = (toVal x).testBit j := by
  induction x with
  | nil => intro j; simp [bitAt, toVal]
  | cons d ds ih =>
    intro j
    have hd := ok_cons_head hx
    have e8 : (2 : Nat) ^ 8 = 256 := by norm_num
    have hor : toVal (d :: ds) = 2 ^ 8 * toVal ds ||| d := by
      rw [← Nat.mul_add_lt_is_or (by omega : d < 2 ^ 8) (toVal ds)]
      show d + 256 * toVal ds = 2 ^ 8 * toVal ds + d
      rw [e8]
      omega
    rw [hor]
    by_cases hj : j < 8
    · have h0 : j / 8 = 0 := Nat.div_eq_of_lt hj
      have hm : j % 8 = j := Nat.mod_eq_of_lt hj
      simp only [bitAt, h0, hm, List.getD_cons_zero]
      rw [Nat.testBit_or]
      have hhi : (2 ^ 8 * toVal ds).testBit j = false := by
        rw [mul_comm, ← Nat.shiftLeft_eq, Nat.testBit_shiftLeft]
        simp [hj]
      rw [hhi, Bool.false_or]
    · push_neg at hj
      have h1 : j / 8 = (j - 8) / 8 + 1 := by omega
      have h2 : j % 8 = (j - 8) % 8 := by omega
      simp only [bitAt, h1, h2, List.getD_cons_succ]
      rw [Nat.testBit_or]
      have hdf : d.testBit j = false :=
        Nat.testBit_lt_two_pow
          (lt_of_lt_of_le (by omega : d < 2 ^ 8) (Nat.pow_le_pow_right (by norm_num) hj))
      have hhi : (2 ^ 8 * toVal ds).testBit j = (toVal ds).testBit (j - 8) := by
        rw [mul_comm, ← Nat.shiftLeft_eq, Nat.testBit_shiftLeft]
        simp [hj]
      rw [hdf, hhi, Bool.or_false]
      exact ih (ok_cons_tail hx) (j - 8)

/-! ### Claim theorems -/

/-- C1: for a container `x` of `N` bytes and a shift count `bits` with
`0 < bits < N*8`, `operator<<` and `operator>>` implement logical shifts
of the whole buffer viewed as one `N*8`-bit little-endian bit sequence:
bit `j` of `x << bits` equals bit `j - bits` of `x` when
`bits ≤ j < N*8` and is 0 otherwise, and bit `j` of `x >> bits` equals
bit `j + bits` of `x` when `j + bits < N*8` and is 0 otherwise — shifted
out bits are discarded, vacated positions are zero-filled. -/
theorem claim_C1_logical_shift {x : List Nat} {bits : Nat} (hx : ok x)
    (hpos : 0 < bits) (hb : bits < x.length * 8) :
    (∀ j, bitAt (shl x bits) j
      = if bits ≤ j ∧ j < x.length * 8 then bitAt x (j - bits) else false) ∧
    (∀ j, bitAt (shr x bits) j
      = if j + bits < x.length * 8 then bitAt x (j + bits) else false) := by
  have hv := toVal_lt hx
  rw [pow256_eq] at hv
  constructor
  · intro j
    rw [bitAt_toVal (ok_shl hx bits) j, toVal_shl hx bits, ← Nat.shiftLeft_eq,
        Nat.testBit_mod_two_pow, Nat.testBit_shiftLeft]
    rcases Nat.lt_or_ge j bits with h | h
    · have h1 : ¬(bits ≤ j ∧ j < x.length * 8) := by omega
      simp [h1, Nat.not_le.mpr h]
    · by_cases h2 : j < x.length * 8
      · simp [h, h2, bitAt_toVal hx]
      · have h3 : ¬(bits ≤ j ∧ j < x.length * 8) := by omega
        simp [h2, h3]
  · intro j
    rw [bitAt_toVal (ok_shr hx bits) j, toVal_shr hx bits,
        ← Nat.shiftRight_eq_div_pow, Nat.testBit_shiftRight]
    by_cases h : j + bits < x.length * 8
    · rw [if_pos h, bitAt_toVal hx, Nat.add_comm bits j]
    · rw [if_neg h]
      apply Nat.testBit_lt_two_pow
      exact lt_of_lt_of_le hv (Nat.pow_le_pow_right (by norm_num) (by omega))

/-- Witness for C1 at the concrete input `x = [0x80, 0x01]`, `bits = 1`. -/
theorem claim_C1_logical_shift_witness :
    ok [128, 1] ∧ 0 < 1 ∧ 1 < [128, 1].length * 8 ∧
    ((∀ j, bitAt (shl [128, 1] 1) j
      = if 1 ≤ j ∧ j < [128, 1].length * 8 then bitAt [128, 1] (j - 1) else false) ∧
    (∀ j, bitAt (shr [128, 1] 1) j
      = if j + 1 < [128, 1].length * 8 then bitAt [128, 1] (j + 1) else false)) :=
  ⟨by decide, by decide, by decide,
    claim_C1_logical_shift (by decide) (by decide) (by decide)⟩

/-- C6: shifting by 0 in either direction is the identity, and shifting
by any `bits ≥ N*8` yields the all-zero container in both directions. -/
theorem claim_C6_shift_identity_saturation (x : List Nat) (bits : Nat) :
    shl x 0 = x ∧ shr x 0 = x ∧
    (x.length * 8 ≤ bits →
      shl x bits = List.replicate x.length 0 ∧
      shr x bits = List.replicate x.length 0) := by
  refine ⟨by simp [shl], by simp [shr], fun h => ?_⟩
  by_cases hb : bits = 0
  · subst hb
    have hx : x = [] := List.length_eq_zero.mp (by omega)
    subst hx
    exact ⟨rfl, rfl⟩
  · constructor <;> simp [shl, shr, hb, h]

/-- Witness for C6's saturation branch at `x = [7]`, `bits = 9 ≥ 8`. -/
theorem claim_C6_shift_identity_saturation_witness :
    shl [7] 9 = List.replicate [7].length 0 ∧
    shr [7] 9 = List.replicate [7].length 0 :=
  (claim_C6_shift_identity_saturation [7] 9).2.2 (by decide)

/-- C2: for `0 ≤ n < N*8`, `x.rotate_left(n).rotate_right(n) == x`: the
two shifted halves of a rotation are disjoint and cover all bit
positions, so rotating back recovers every byte exactly. -/
theorem claim_C2_rotate_roundtrip {x : List Nat} {n : Nat} (hx : ok x)
    (hn : n < x.length * 8) :
    rotate_right (rotate_left x n) n = x := by
  have hmod : n % (x.length * 8) = n := Nat.mod_eq_of_lt hn
  have hv := toVal_lt hx
  rw [pow256_eq] at hv
  have hsplitL : 2 ^ (x.length * 8 - n) * 2 ^ n = 2 ^ (x.length * 8) := by
    rw [← pow_add]; congr 1; omega
  have hsplitR : 2 ^ n * 2 ^ (x.length * 8 - n) = 2 ^ (x.length * 8) := by
    rw [← pow_add]; congr 1; omega
  have hB : toVal x / 2 ^ (x.length * 8 - n) < 2 ^ n := by
    apply Nat.div_lt_of_lt_mul
    rw [hsplitL]
    exact hv
  have hA : toVal x % 2 ^ (x.length * 8 - n) < 2 ^ (x.length * 8 - n) :=
    Nat.mod_lt _ (Nat.pos_pow_of_pos _ (by norm_num))
  have hokY : ok (rotate_left x n) := ok_orB (ok_shl hx _) (ok_shr hx _)
  have hlenY : (rotate_left x n).length = x.length := by
    rw [rotate_left, orB_length, shl_length, shr_length, min_self]
  have hwval : toVal (rotate_left x n)
      = 2 ^ n * (toVal x % 2 ^ (x.length * 8 - n)) + toVal x / 2 ^ (x.length * 8 - n) := by
    rw [rotate_left, hmod,
        toVal_orB (ok_shl hx _) (ok_shr hx _) (by rw [shl_length, shr_length]),
        toVal_shl hx, toVal_shr hx, ← hsplitL, Nat.mul_mod_mul_right,
        mul_comm (toVal x % 2 ^ (x.length * 8 - n)) (2 ^ n),
        ← Nat.mul_add_lt_is_or hB (toVal x % 2 ^ (x.length * 8 - n))]
  have hok2 : ok (rotate_right (rotate_left x n) n) := by
    rw [rotate_right]
    exact ok_orB (ok_shr hokY _) (ok_shl hokY _)
  have hlen2 : (rotate_right (rotate_left x n) n).length = x.length := by
    rw [rotate_right, orB_length, shr_length, shl_length, min_self, hlenY]
  apply toVal_inj hok2 hx hlen2
  · rw [rotate_right, hlenY, hmod,
        toVal_orB (ok_shr hokY _) (ok_shl hokY _) (by rw [shr_length, shl_length]),
        toVal_shr hokY, toVal_shl hokY, hlenY, hwval]
    have e1 : (2 ^ n * (toVal x % 2 ^ (x.length * 8 - n))
          + toVal x / 2 ^ (x.length * 8 - n)) / 2 ^ n
        = toVal x % 2 ^ (x.length * 8 - n) := by
      rw [add_comm (2 ^ n * (toVal x % 2 ^ (x.length * 8 - n)))
            (toVal x / 2 ^ (x.length * 8 - n)),
          mul_comm (2 ^ n) (toVal x % 2 ^ (x.length * 8 - n)),
          Nat.add_mul_div_right _ _ (Nat.pos_pow_of_pos _ (by norm_num)),
          Nat.div_eq_of_lt hB, zero_add]
    have e2 : ((2 ^ n * (toVal x % 2 ^ (x.length * 8 - n))
          + toVal x / 2 ^ (x.length * 8 - n)) * 2 ^ (x.length * 8 - n))
          % 2 ^ (x.length * 8)
        = toVal x / 2 ^ (x.length * 8 - n) * 2 ^ (x.length * 8 - n) := by
      rw [← hsplitR, Nat.mul_mod_mul_right]
      congr 1
      rw [add_comm (2 ^ n * (toVal x % 2 ^ (x.length * 8 - n)))
            (toVal x / 2 ^ (x.length * 8 - n)),
          mul_comm (2 ^ n) (toVal x % 2 ^ (x.length * 8 - n)),
          Nat.add_mul_mod_self_right, Nat.mod_eq_of_lt hB]
    rw [e1, e2, Nat.or_comm,
        mul_comm (toVal x / 2 ^ (x.length * 8 - n)) (2 ^ (x.length * 8 - n)),
        ← Nat.mul_add_lt_is_or hA (toVal x / 2 ^ (x.length * 8 - n)),
        Nat.div_add_mod]

/-- Witness for C2 at `x = [0xAB, 0xCD]`, `n = 5`. -/
theorem claim_C2_rotate_roundtrip_witness :
    rotate_right (rotate_left [171, 205] 5) 5 = [171, 205] :=
  claim_C2_rotate_roundtrip (by decide) (by decide)

/-- With `N = w` every index is below `min N w`, so the constructor takes
byte `i` of the value for every cell. -/
theorem from_int_self (n v : Nat) :
    from_int n n v = (List.range n).map (fun i => (v >>> (8 * i)) % 256) := by
  unfold from_int
  apply List.map_congr_left
  intro i hi
  have h : i < min n n := by simpa using List.mem_range.mp hi
  rw [if_pos h]

/-- Reassembling the first `n` little-endian bytes of `v` gives `v` modulo
`256^n`. -/
theorem toVal_byteChunks (v : Nat) : ∀ n,
    toVal ((List.range n).map (fun i => (v >>> (8 * i)) % 256)) = v % 256 ^ n := by
  intro n
  induction n with
  | zero => simp [toVal, Nat.mod_one]
  | succ k ih =>
    rw [List.range_succ, List.map_append, toVal_append, ih]
    simp only [List.map_cons, List.map_nil, toVal, List.length_map,
      List.length_range, mul_zero, add_zero]
    have h1 : v >>> (8 * k) = v / 256 ^ k := by
      rw [Nat.shiftRight_eq_div_pow, pow_mul]
      norm_num
    have h2 : v % 256 ^ k < 256 ^ k :=
      Nat.mod_lt _ (Nat.pos_pow_of_pos _ (by norm_num))
    rw [h1, pow_succ,
        ← mod_mul_decomp (v / 256 ^ k) h2 (by norm_num : (0:Nat) < 256),
        Nat.mod_add_div]

/-- C3: for a container whose byte count `n` equals the integer type's
byte count, `to_int` is the exact inverse of the little-endian integer
constructor: `to_int n (from_int n n v) = v` for every representable
value `v < 256^n`. -/
theorem claim_C3_int_roundtrip {n v : Nat} (hv : v < 256 ^ n) :
    to_int n (from_int n n v) = v := by
  have hlen : (from_int n n v).length = n := by
    simp [from_int]
  unfold to_int
  rw [hlen, min_self, List.take_of_length_le (le_of_eq hlen), from_int_self,
      toVal_byteChunks, Nat.mod_eq_of_lt hv]

/-- Witness for C3 at `n = 2`, `v = 0xBEEF`. -/
theorem claim_C3_int_roundtrip_witness :
    48879 < 256 ^ 2 ∧ to_int 2 (from_int 2 2 48879) = 48879 :=
  ⟨by decide, claim_C3_int_roundtrip (by decide)⟩

/-- C5: the spec's concrete N = 4 scenario, evaluated on the embedded
operations: construction from `0x01020304` (little-endian), shifts by 8,
`rotate_left 8`, `popcount`, and the hex rendering. -/
theorem claim_C5_concrete_scenario :
    from_int 4 4 0x01020304 = [0x04, 0x03, 0x02, 0x01] ∧
    shl [0x04, 0x03, 0x02, 0x01] 8 = [0x00, 0x04, 0x03, 0x02] ∧
    shr [0x04, 0x03, 0x02, 0x01] 8 = [0x03, 0x02, 0x01, 0x00] ∧
    rotate_left [0x04, 0x03, 0x02, 0x01] 8 = [0x01, 0x04, 0x03, 0x02] ∧
    popcount [0x0F, 0, 0, 0] = 4 ∧
    hexStr [0x04, 0x03, 0x02, 0x01] = "0x01020304" := by
  decide

/-- C7: the clamped accessor `operator[]` returns the byte at index
`min(i, N-1)`: in-range indices are served exactly, out-of-range indices
are clamped to the last byte, and no error is ever signalled (the
function is total). -/
theorem claim_C7_clamped_index (x : List Nat) (i : Nat) (hx : 0 < x.length) :
    get x i = x.getD (min i (x.length - 1)) 0 ∧
    (i < x.length → get x i = x.getD i 0) ∧
    (x.length ≤ i → get x i = x.getD (x.length - 1) 0) := by
  refine ⟨rfl, fun h => ?_, fun h => ?_⟩
  · unfold get
    congr 1
    omega
  · unfold get
    congr 1
    omega

/-- Witness for C7 at `x = [5, 6]` with the out-of-range index `i = 7`. -/
theorem claim_C7_clamped_index_witness :
    get [5, 6] 7 = [5, 6].getD (min 7 ([5, 6].length - 1)) 0 ∧
    (7 < [5, 6].length → get [5, 6] 7 = [5, 6].getD 7 0) ∧
    ([5, 6].length ≤ 7 → get [5, 6] 7 = [5, 6].getD ([5, 6].length - 1) 0) :=
  claim_C7_clamped_index [5, 6] 7 (by decide)

/-- C8: for any bit position `pos ≥ N*8`, the three bit mutators leave
the container unchanged and `test_bit` returns `false`; none of them can
signal an error (all are total functions). -/
theorem claim_C8_oob_bit_ops {x : List Nat} {pos : Nat}
    (h : x.length * 8 ≤ pos) :
    set_bit x pos = x ∧ clear_bit x pos = x ∧ toggle_bit x pos = x ∧
    test_bit x pos = false := by
  have hn : ¬pos < x.length * 8 := by omega
  exact ⟨by simp [set_bit, hn], by simp [clear_bit, hn],
    by simp [toggle_bit, hn], by simp [test_bit, h]⟩

/-- Witness for C8 at `x = [255]`, `pos = 8 = N*8`. -/
theorem claim_C8_oob_bit_ops_witness :
    [255].length * 8 ≤ 8 ∧
    (set_bit [255] 8 = [255] ∧ clear_bit [255] 8 = [255] ∧
     toggle_bit [255] 8 = [255] ∧ test_bit [255] 8 = false) :=
  ⟨by decide, claim_C8_oob_bit_ops (by decide)⟩

/-- C10: the defaulted `operator<=>` compares lexicographically from byte
index 0, the least-significant byte, so the order disagrees with numeric
order: `[0x00, 0x01]` compares strictly below `[0x01, 0x00]` while its
`uint16` value 256 is strictly greater than 1. -/
theorem claim_C10_order_vs_numeric :
    cmp [0x00, 0x01] [0x01, 0x00] = Ordering.lt ∧
    to_int 2 [0x00, 0x01] = 256 ∧ to_int 2 [0x01, 0x00] = 1 ∧
    to_int 2 [0x01, 0x00] < to_int 2 [0x00, 0x01] := by
  decide

/-- C9: for an in-range bit position `p < N*8`, each of `set_bit`,
`clear_bit` and `toggle_bit` changes at most the single bit `p` (bit
`p % 8` of byte `p / 8`): every other bit `r` of every byte `i` of the
container is exactly as it was before the call. -/
theorem claim_C9_single_bit_frame {x : List Nat} {p : Nat} (hx : ok x)
    (hp : p < x.length * 8) :
    ∀ i r, r < 8 → 8 * i + r ≠ p →
      ((set_bit x p).getD i 0).testBit r = (x.getD i 0).testBit r ∧
      ((clear_bit x p).getD i 0).testBit r = (x.getD i 0).testBit r ∧
      ((toggle_bit x p).getD i 0).testBit r = (x.getD i 0).testBit r := by
  intro i r hr hne
  have hq : p / 8 < x.length := by omega
  rw [set_bit, clear_bit, toggle_bit, if_pos hp, if_pos hp, if_pos hp]
  by_cases hi : i = p / 8
  · subst hi
    have hrk : p % 8 ≠ r := by omega
    have hset : ∀ (c : Nat), (x.set (p / 8) c).getD (p / 8) 0 = c := fun c => by
      simp [List.getD_eq_getElem?_getD, List.getElem?_set_self hq]
    rw [hset, hset, hset, Nat.one_shiftLeft]
    refine ⟨?_, ?_, ?_⟩
    · rw [Nat.testBit_or, Nat.testBit_two_pow_of_ne hrk, Bool.or_false]
    · rw [Nat.testBit_and, Nat.testBit_xor, Nat.testBit_two_pow_of_ne hrk,
          show (255 : Nat) = 2 ^ 8 - 1 by norm_num, Nat.testBit_two_pow_sub_one]
      simp [hr]
    · rw [Nat.testBit_xor, Nat.testBit_two_pow_of_ne hrk, Bool.xor_false]
  · have hne2 : p / 8 ≠ i := fun h => hi h.symm
    have hset : ∀ (c : Nat), (x.set (p / 8) c).getD i 0 = x.getD i 0 := fun c => by
      rw [List.getD_eq_getElem?_getD, List.getElem?_set_ne hne2,
          ← List.getD_eq_getElem?_getD]
    rw [hset, hset, hset]
    exact ⟨rfl, rfl, rfl⟩

/-- Witness for C9 at `x = [0xFF, 0x00]`, `p = 3`. -/
theorem claim_C9_single_bit_frame_witness :
    ok [255, 0] ∧ 3 < [255, 0].length * 8 ∧
    (∀ i r, r < 8 → 8 * i + r ≠ 3 →
      ((set_bit [255, 0] 3).getD i 0).testBit r = ([255, 0].getD i 0).testBit r ∧
      ((clear_bit [255, 0] 3).getD i 0).testBit r = ([255, 0].getD i 0).testBit r ∧
      ((toggle_bit [255, 0] 3).getD i 0).testBit r = ([255, 0].getD i 0).testBit r) :=
  ⟨by decide, by decide, claim_C9_single_bit_frame (by decide) (by decide)⟩

/-! ### Rendering characterizations (C4) -/

theorem binRender_eq (x : List Nat) :
    binRender x = (List.intersperse [' '] (x.map byteBin)).flatten := by
  induction x with
  | nil => rfl
  | cons b rest ih =>
    match rest with
    | [] => simp [binRender, List.intersperse]
    | c :: cs =>
      have h1 : binRender (b :: c :: cs) = byteBin b ++ ' ' :: binRender (c :: cs) := rfl
      have h2 : List.intersperse [' '] (byteBin b :: byteBin c :: cs.map byteBin)
          = byteBin b :: [' '] :: List.intersperse [' '] (byteBin c :: cs.map byteBin) := rfl
      rw [h1, ih]
      simp only [List.map_cons]
      rw [h2, List.flatten_cons, List.flatten_cons, List.singleton_append]

theorem hexRender_eq (x : List Nat) :
    hexRender x = (x.reverse.map byteHex).flatten := by
  induction x with
  | nil => rfl
  | cons b rest ih =>
    have h1 : hexRender (b :: rest) = hexRender rest ++ byteHex b := rfl
    rw [h1, ih, List.reverse_cons, List.map_append, List.flatten_append]
    simp

theorem bit_of_shift (m j : Nat) : (((m >>> j) &&& 1) != 0) = m.testBit j := by
  rw [Nat.and_comm]
  rfl

/-- C4 counterexample: the claim says the binary stream rendering lists
bytes in HIGH-to-low order (byte `N-1` first).  On `[0x01, 0x02]` the
code renders byte 0 first, `"00000001 00000010"`, while the claimed
order would give `"00000010 00000001"`. -/
theorem claim_C4_byte_order_counterexample :
    binStr [1, 2] = "00000001 00000010" ∧
    specBinStr [1, 2] = "00000010 00000001" ∧
    binStr [1, 2] ≠ specBinStr [1, 2] := by
  decide

/-- C4 (amended): the binary stream rendering lists the `N` bytes
space-separated in LOW-to-high byte order (byte 0 first, byte `N-1`
last), each byte as its 8 binary digits with bit 7 printed first; the
hexadecimal rendering is `"0x"` followed by the bytes from the highest
index down to index 0, two lowercase zero-padded hex digits per byte. -/
theorem claim_C4_rendering_amended (x : List Nat) :
    binRender x = (List.intersperse [' '] (x.map byteBin)).flatten ∧
    (∀ b, byteBin b
      = (List.range 8).map (fun k => if b.testBit (7 - k) then '1' else '0')) ∧
    hexStr x = "0x" ++ String.mk ((x.reverse.map byteHex).flatten) := by
  refine ⟨binRender_eq x, fun b => ?_, ?_⟩
  · unfold byteBin
    apply List.map_congr_left
    intro k _
    rw [bit_of_shift]
  · rw [hexStr, hexRender_eq]


end Zuu
